import Mathlib

/-!
Shallow embedding of the `json_aggregator` package
(`src/json_aggregator/aggregation.py`, `aggregate_json.py`, `utils.py`).

Python dictionaries are modelled as association lists (`List (K × V)`)
whose keys are distinct; where a claim depends on that structural
invariant of Python dicts it appears as an explicit `Nodup` hypothesis.
`dict` construction from a pair iterable (later binding wins, position of
first occurrence kept) is modelled by `pyDict`, and `dict.get` / `d[k]`
by `lookup`.  Fallible Python code returns `Except PyErr`.
-/

namespace JsonAgg

/-- Python exceptions that the modelled code can raise. -/
inductive PyErr where
  | valueError (msg : String) : PyErr
  | keyError (key : String) : PyErr
deriving DecidableEq, Repr

section PyDict

variable {K : Type} [DecidableEq K] {V : Type}

/-- First binding of key `k` in an association list: Python `d[k]` / `d.get(k)`
(for genuine dicts, whose keys are distinct, "first" is "the" binding). -/
def lookup : List (K × V) → K → Option V
  | [], _ => none
  | (k', v) :: rest, k => if k' = k then some v else lookup rest k

/-- The keys of an association list, in order. -/
def keys (m : List (K × V)) : List K := m.map Prod.fst

/-- Python dict assignment `m[k] = v`: replace the value in place if the key
is present, otherwise append the new binding at the end. -/
def pyInsert : List (K × V) → K → V → List (K × V)
  | [], k, v => [(k, v)]
  | (k', v') :: rest, k, v =>
    if k' = k then (k', v) :: rest else (k', v') :: pyInsert rest k v

/-- Python `dict(pairs)`: start from the empty dict and assign every pair in
order (a later binding for a key overwrites the earlier value, the key keeps
its first-occurrence position). -/
def pyDict (l : List (K × V)) : List (K × V) :=
  l.foldl (fun m p => pyInsert m p.1 p.2) []

@[simp] theorem lookup_nil (k : K) : lookup ([] : List (K × V)) k = none := rfl

@[simp] theorem lookup_cons (k' : K) (v : V) (rest : List (K × V)) (k : K) :
    lookup ((k', v) :: rest) k = if k' = k then some v else lookup rest k := rfl

theorem lookup_append (l₁ l₂ : List (K × V)) (k : K) :
    lookup (l₁ ++ l₂) k = (lookup l₁ k).orElse (fun _ => lookup l₂ k) := by
  induction l₁ with
  | nil => simp [Option.orElse]
  | cons p rest ih =>
    obtain ⟨k', v⟩ := p
    by_cases h : k' = k <;> simp [h, ih, Option.orElse]

theorem lookup_isSome_iff (m : List (K × V)) (k : K) :
    (lookup m k).isSome ↔ k ∈ keys m := by
  induction m with
  | nil => simp [keys]
  | cons p rest ih =>
    obtain ⟨k', v⟩ := p
    by_cases h : k' = k
    · subst h
      simp only [lookup_cons, if_pos rfl, keys, List.map_cons, List.mem_cons]
      simp
    · have h' : ¬ k = k' := fun hh => h hh.symm
      simp only [lookup_cons, if_neg h, keys, List.map_cons, List.mem_cons]
      rw [ih]
      simp [keys, h']

theorem lookup_eq_none_iff (m : List (K × V)) (k : K) :
    lookup m k = none ↔ k ∉ keys m := by
  rw [← lookup_isSome_iff]
  cases lookup m k <;> simp

theorem mem_of_lookup_eq_some {m : List (K × V)} {k : K} {v : V}
    (h : lookup m k = some v) : (k, v) ∈ m := by
  induction m with
  | nil => simp at h
  | cons p rest ih =>
    obtain ⟨k', v'⟩ := p
    by_cases hk : k' = k
    · subst hk
      simp at h
      simp [h]
    · simp [hk] at h
      simp [ih h]

@[simp] theorem lookup_pyInsert (m : List (K × V)) (k : K) (v : V) (k' : K) :
    lookup (pyInsert m k v) k' = if k = k' then some v else lookup m k' := by
  induction m with
  | nil => simp [pyInsert]
  | cons p rest ih =>
    obtain ⟨k₀, v₀⟩ := p
    by_cases h₀ : k₀ = k
    · subst h₀
      by_cases h₁ : k₀ = k'
      · subst h₁
        simp [pyInsert]
      · simp [pyInsert, h₁]
    · have hrw : pyInsert ((k₀, v₀) :: rest) k v = (k₀, v₀) :: pyInsert rest k v := by
        simp [pyInsert, h₀]
      rw [hrw]
      by_cases h₁ : k₀ = k'
      · subst h₁
        have hne : ¬ k = k₀ := fun h => h₀ h.symm
        simp [hne]
      · simp [h₁, ih]

theorem keys_pyInsert (m : List (K × V)) (k : K) (v : V) :
    keys (pyInsert m k v) = if k ∈ keys m then keys m else keys m ++ [k] := by
  induction m with
  | nil => simp [pyInsert, keys]
  | cons p rest ih =>
    obtain ⟨k₀, v₀⟩ := p
    by_cases h₀ : k₀ = k
    · subst h₀
      have hmem : k₀ ∈ keys ((k₀, v₀) :: rest) := by simp [keys]
      rw [if_pos hmem]
      simp [pyInsert, keys]
    · have hrw : pyInsert ((k₀, v₀) :: rest) k v = (k₀, v₀) :: pyInsert rest k v := by
        simp [pyInsert, h₀]
      have hne : ¬ k = k₀ := fun h => h₀ h.symm
      have hmem : (k ∈ keys ((k₀, v₀) :: rest)) ↔ (k ∈ keys rest) := by
        simp only [keys, List.map_cons, List.mem_cons]
        constructor
        · rintro (h | h)
          · exact absurd h hne
          · exact h
        · exact Or.inr
      rw [hrw]
      by_cases hm : k ∈ keys rest
      · rw [if_pos (hmem.mpr hm)]
        have : keys (pyInsert rest k v) = keys rest := by rw [ih, if_pos hm]
        simp only [keys, List.map_cons] at this ⊢
        rw [this]
      · rw [if_neg (fun h => hm (hmem.mp h))]
        have : keys (pyInsert rest k v) = keys rest ++ [k] := by rw [ih, if_neg hm]
        simp only [keys, List.map_cons] at this ⊢
        rw [this]
        simp

theorem pyInsert_of_not_mem {m : List (K × V)} {k : K} (v : V)
    (h : k ∉ keys m) : pyInsert m k v = m ++ [(k, v)] := by
  induction m with
  | nil => simp [pyInsert]
  | cons p rest ih =>
    obtain ⟨k₀, v₀⟩ := p
    simp [keys] at h
    have : ¬ k₀ = k := fun hh => h.1 hh.symm
    simp [pyInsert, this, ih (by simp [keys, h.2])]

theorem pyDict_eq_self {l : List (K × V)} (h : (keys l).Nodup) : pyDict l = l := by
  suffices H : ∀ (l : List (K × V)) (m : List (K × V)), (keys (m ++ l)).Nodup →
      l.foldl (fun m p => pyInsert m p.1 p.2) m = m ++ l by
    simpa using H l [] (by simpa using h)
  intro l
  induction l with
  | nil => simp
  | cons p rest ih =>
    intro m hm
    obtain ⟨k, v⟩ := p
    have hm' : (keys m ++ k :: keys rest).Nodup := by
      simpa [keys] using hm
    rw [List.nodup_append] at hm'
    have hk : k ∉ keys m := fun hmem => hm'.2.2 hmem (List.mem_cons_self _ _)
    have step : pyInsert m k v = m ++ [(k, v)] := pyInsert_of_not_mem v hk
    simp only [List.foldl_cons, step]
    rw [ih (m ++ [(k, v)])
      (by rw [show (m ++ [(k, v)]) ++ rest = m ++ (k, v) :: rest from by simp]; exact hm)]
    simp

theorem lookup_pyDict (l : List (K × V)) (k : K) :
    lookup (pyDict l) k = lookup l.reverse k := by
  suffices H : ∀ (l m : List (K × V)),
      lookup (l.foldl (fun m p => pyInsert m p.1 p.2) m) k
        = (lookup l.reverse k).orElse (fun _ => lookup m k) by
    have h := H l []
    simp only [lookup_nil] at h
    rw [pyDict, h]
    cases lookup l.reverse k <;> simp [Option.orElse]
  intro l
  induction l with
  | nil => intro m; simp [Option.orElse]
  | cons p rest ih =>
    intro m
    obtain ⟨k₀, v₀⟩ := p
    simp only [List.foldl_cons, List.reverse_cons]
    rw [ih, lookup_append]
    cases h : lookup rest.reverse k
    · simp only [h, lookup_pyInsert, lookup_cons, lookup_nil]
      by_cases hk : k₀ = k <;> simp [hk, Option.orElse]
    · simp [h, Option.orElse]

theorem keys_pyDict_nodup (l : List (K × V)) : (keys (pyDict l)).Nodup := by
  suffices H : ∀ (l m : List (K × V)), (keys m).Nodup →
      (keys (l.foldl (fun m p => pyInsert m p.1 p.2) m)).Nodup by
    exact H l [] (by simp [keys])
  intro l
  induction l with
  | nil => intro m hm; simpa using hm
  | cons p rest ih =>
    intro m hm
    simp only [List.foldl_cons]
    refine ih _ ?_
    rw [keys_pyInsert]
    split
    · exact hm
    · rename_i hnot
      simp [List.nodup_append, hm, hnot]

theorem snd_mem_pyInsert (m : List (K × V)) (k : K) (v w : V) :
    w ∈ (pyInsert m k v).map Prod.snd → w = v ∨ w ∈ m.map Prod.snd := by
  induction m with
  | nil => intro h; simpa [pyInsert] using h
  | cons p rest ih =>
    obtain ⟨k₀, v₀⟩ := p
    intro h
    by_cases h₀ : k₀ = k
    · subst h₀
      simp [pyInsert] at h
      rcases h with h | ⟨a, ha⟩
      · exact Or.inl h
      · refine Or.inr ?_
        simp only [List.map_cons, List.mem_cons, List.mem_map]
        exact Or.inr ⟨(a, w), ha, rfl⟩
    · have hrw : pyInsert ((k₀, v₀) :: rest) k v = (k₀, v₀) :: pyInsert rest k v := by
        simp [pyInsert, h₀]
      rw [hrw] at h
      simp only [List.map_cons, List.mem_cons] at h
      rcases h with h | h
      · exact Or.inr (by simp [h])
      · rcases ih h with h' | h'
        · exact Or.inl h'
        · refine Or.inr ?_
          simp only [List.map_cons, List.mem_cons]
          exact Or.inr h'

theorem snd_mem_pyDict {l : List (K × V)} {w : V}
    (h : w ∈ (pyDict l).map Prod.snd) : w ∈ l.map Prod.snd := by
  suffices H : ∀ (l m : List (K × V)) (w : V),
      w ∈ ((l.foldl (fun m p => pyInsert m p.1 p.2) m)).map Prod.snd →
      w ∈ m.map Prod.snd ∨ w ∈ l.map Prod.snd by
    rcases H l [] w h with h' | h'
    · simp at h'
    · exact h'
  intro l
  induction l with
  | nil =>
    intro m w h
    simp only [List.foldl_nil] at h
    exact Or.inl h
  | cons p rest ih =>
    intro m w h
    simp only [List.foldl_cons] at h
    rcases ih _ _ h with h' | h'
    · rcases snd_mem_pyInsert _ _ _ _ h' with h'' | h'' <;> simp [h'']
    · simp [h']

end PyDict

/-! ### JSON values

`Val` models a parsed JSON value (the contents of a `Document`): scalars,
arrays, and nested objects.  Objects are association lists, like every other
Python dict in this development. -/

inductive Val where
  | null : Val
  | bool (b : Bool) : Val
  | int (n : Int) : Val
  | str (s : String) : Val
  | arr (elems : List Val) : Val
  | obj (entries : List (String × Val)) : Val

/-- `True` exactly for values that are Python `Mapping`s
(`isinstance(v, Mapping)` in `flatten_dict_gen`). -/
def Val.isObj : Val → Bool
  | .obj _ => true
  | _ => false

namespace utils

/-! ### `src/json_aggregator/utils.py` -/

/-- `all_keys`: the set of all keys present in the given dictionaries,
enumerated as the deduplicated concatenation of the key lists (a Python
`set` fixes no enumeration order; this embedding picks one). -/
def all_keys {K : Type} [DecidableEq K] {V : Type} (dicts : List (List (K × V))) : List K :=
  ((dicts.map keys).flatten).dedup

/-- `parent_key + delimiter + k if parent_key is not None else k`. -/
def joinKey (parent_key : Option String) (delimiter k : String) : String :=
  match parent_key with
  | some p => p ++ delimiter ++ k
  | none => k

/-- `flatten_dict_gen`: walks the items of `d`; a `Mapping` value is flattened
recursively through `flatten_dict` (= `dict` of the recursive generator, hence
the inlined `pyDict`), any other value is yielded as a leaf under its compound
key. -/
def flatten_dict_gen : List (String × Val) → Option String → String → List (String × Val)
  | [], _, _ => []
  | (k, v) :: rest, parent_key, delimiter =>
    (match v with
     | Val.obj entries =>
        pyDict (flatten_dict_gen entries (some (joinKey parent_key delimiter k)) delimiter)
     | _ => [(joinKey parent_key delimiter k, v)])
    ++ flatten_dict_gen rest parent_key delimiter
termination_by d _ _ => sizeOf d
decreasing_by all_goals (simp_wf <;> omega)

/-- `flatten_dict(d, parent_key, delimiter) = dict(flatten_dict_gen(...))`. -/
def flatten_dict (d : List (String × Val)) (parent_key : Option String)
    (delimiter : String) : List (String × Val) :=
  pyDict (flatten_dict_gen d parent_key delimiter)

/-- The claim-side enumeration of a document's leaves: every non-mapping
value, tagged with the path of nested keys leading to it, in document order.
(This is the specification's notion of "leaf under a path"; the source's
`flatten_dict_gen` is compared against it.) -/
def pathLeaves : List (String × Val) → List (List String × Val)
  | [] => []
  | (k, v) :: rest =>
    (match v with
     | Val.obj entries => (pathLeaves entries).map (fun q => (k :: q.1, q.2))
     | _ => [([k], v)])
    ++ pathLeaves rest
termination_by d => sizeOf d
decreasing_by all_goals (simp_wf <;> omega)

/-- Folding a key path onto an optional parent compound key, joining with the
delimiter at every step. -/
def joinFrom (parent : Option String) (delimiter : String) : List String → String
  | [] => parent.getD ""
  | k :: rest => rest.foldl (fun acc k' => acc ++ delimiter ++ k') (joinKey parent delimiter k)

/-- The compound key of a path: its keys joined with the delimiter. -/
def joinPath (delimiter : String) (path : List String) : String :=
  joinFrom none delimiter path

theorem joinFrom_cons (parent : Option String) (delimiter k : String) (q : List String) :
    joinFrom parent delimiter (k :: q)
      = joinFrom (some (joinKey parent delimiter k)) delimiter q := by
  cases q with
  | nil => rfl
  | cons k' rest => rfl

theorem joinFrom_single (parent : Option String) (delimiter k : String) :
    joinFrom parent delimiter [k] = joinKey parent delimiter k := rfl

/-- `multi_pattern_glob`: starts from an empty list and `extend`s it with the
matches of each pattern in turn.  Filesystem traversal itself is an external
collaborator, passed in as the oracle `glob` (what `Path(path).glob(pattern)`
returns, in traversal order). -/
def multi_pattern_glob (glob : String → String → List String)
    (path : String) (patterns : List String) : List String :=
  patterns.foldl (fun matching_files pattern => matching_files ++ glob path pattern) []

/-- On inputs whose leaves have pairwise distinct compound keys, the
generator enumerates exactly the leaves of the document, each under its
joined compound key, in document order. -/
theorem flatten_dict_gen_eq_pathLeaves (d : List (String × Val))
    (parent : Option String) (delimiter : String) :
    ((pathLeaves d).map (fun q => joinFrom parent delimiter q.1)).Nodup →
    flatten_dict_gen d parent delimiter
      = (pathLeaves d).map (fun q => (joinFrom parent delimiter q.1, q.2)) := by
  induction d, parent, delimiter using flatten_dict_gen.induct with
  | case1 parent delimiter =>
    intro _
    simp [flatten_dict_gen, pathLeaves]
  | case2 k v rest parent delimiter ih1 ih2 =>
    intro hnodup
    cases v
    case obj entries =>
      have ih1' : ((pathLeaves entries).map
            (fun q => joinFrom (some (joinKey parent delimiter k)) delimiter q.1)).Nodup →
          flatten_dict_gen entries (some (joinKey parent delimiter k)) delimiter
            = (pathLeaves entries).map
                (fun q => (joinFrom (some (joinKey parent delimiter k)) delimiter q.1, q.2)) :=
        ih1
      have hgen : flatten_dict_gen ((k, Val.obj entries) :: rest) parent delimiter
          = pyDict (flatten_dict_gen entries (some (joinKey parent delimiter k)) delimiter)
            ++ flatten_dict_gen rest parent delimiter := by
        simp only [flatten_dict_gen]
      have hpl : pathLeaves ((k, Val.obj entries) :: rest)
          = (pathLeaves entries).map (fun q => (k :: q.1, q.2)) ++ pathLeaves rest := by
        simp only [pathLeaves]
      rw [hpl, List.map_append, List.nodup_append] at hnodup
      obtain ⟨h1, h2, -⟩ := hnodup
      have hcomp : (((pathLeaves entries).map (fun q => (k :: q.1, q.2))).map
            (fun q => joinFrom parent delimiter q.1))
          = (pathLeaves entries).map
              (fun q => joinFrom (some (joinKey parent delimiter k)) delimiter q.1) := by
        rw [List.map_map]
        have heq : ((fun q : List String × Val => joinFrom parent delimiter q.1)
              ∘ (fun q : List String × Val => (k :: q.1, q.2)))
            = fun q : List String × Val =>
                joinFrom (some (joinKey parent delimiter k)) delimiter q.1 := by
          funext q
          simp only [Function.comp]
          exact joinFrom_cons parent delimiter k q.1
        rw [heq]
      rw [hcomp] at h1
      have hin := ih1' h1
      have hkeys : keys ((pathLeaves entries).map
            (fun q => (joinFrom (some (joinKey parent delimiter k)) delimiter q.1, q.2)))
          = (pathLeaves entries).map
              (fun q => joinFrom (some (joinKey parent delimiter k)) delimiter q.1) := by
        simp only [keys, List.map_map]
        rfl
      have hpy : pyDict (flatten_dict_gen entries (some (joinKey parent delimiter k)) delimiter)
          = (pathLeaves entries).map
              (fun q => (joinFrom (some (joinKey parent delimiter k)) delimiter q.1, q.2)) := by
        rw [hin]
        refine pyDict_eq_self ?_
        rw [hkeys]
        exact h1
      have hhead : ((pathLeaves entries).map (fun q => (k :: q.1, q.2))).map
            (fun q => (joinFrom parent delimiter q.1, q.2))
          = (pathLeaves entries).map
              (fun q => (joinFrom (some (joinKey parent delimiter k)) delimiter q.1, q.2)) := by
        rw [List.map_map]
        have heq : ((fun q : List String × Val => (joinFrom parent delimiter q.1, q.2))
              ∘ (fun q : List String × Val => (k :: q.1, q.2)))
            = fun q : List String × Val =>
                (joinFrom (some (joinKey parent delimiter k)) delimiter q.1, q.2) := by
          funext q
          simp only [Function.comp]
          rw [joinFrom_cons]
        rw [heq]
      rw [hgen, hpl, List.map_append, hpy, hhead, ih2 h2]
    all_goals (
      simp only [flatten_dict_gen, pathLeaves, List.singleton_append, List.map_cons]
        at hnodup ⊢
      rw [List.nodup_cons] at hnodup
      rw [ih2 hnodup.2]
      rfl)

/-- On a dict with no mapping values, the generator reproduces the dict. -/
theorem flatten_dict_gen_of_flat (d : List (String × Val)) (delimiter : String)
    (h : ∀ p ∈ d, p.2.isObj = false) :
    flatten_dict_gen d none delimiter = d := by
  induction d with
  | nil => simp [flatten_dict_gen]
  | cons p rest ih =>
    obtain ⟨k, v⟩ := p
    have hv : v.isObj = false := h (k, v) (by simp)
    have hrest : ∀ p ∈ rest, p.2.isObj = false := fun p hp => h p (by simp [hp])
    cases v
    case obj entries => simp [Val.isObj] at hv
    all_goals (
      simp only [flatten_dict_gen, List.singleton_append]
      rw [ih hrest]
      rfl)

/-- Every value in the generator's output is a leaf, i.e. not a mapping. -/
theorem flatten_dict_gen_values_not_obj (d : List (String × Val))
    (parent : Option String) (delimiter : String) :
    ∀ p ∈ flatten_dict_gen d parent delimiter, p.2.isObj = false := by
  induction d, parent, delimiter using flatten_dict_gen.induct with
  | case1 parent delimiter => simp [flatten_dict_gen]
  | case2 k v rest parent delimiter ih1 ih2 =>
    cases v
    case obj entries =>
      intro p hp
      have hgen : flatten_dict_gen ((k, Val.obj entries) :: rest) parent delimiter
          = pyDict (flatten_dict_gen entries (some (joinKey parent delimiter k)) delimiter)
            ++ flatten_dict_gen rest parent delimiter := by
        simp only [flatten_dict_gen]
      rw [hgen] at hp
      rcases List.mem_append.mp hp with hp | hp
      · have hsnd : p.2 ∈ (pyDict (flatten_dict_gen entries
            (some (joinKey parent delimiter k)) delimiter)).map Prod.snd :=
          List.mem_map_of_mem _ hp
        have h2 := snd_mem_pyDict hsnd
        rw [List.mem_map] at h2
        obtain ⟨q, hq, hq2⟩ := h2
        rw [← hq2]
        exact ih1 q hq
      · exact ih2 p hp
    all_goals (
      intro p hp
      simp only [flatten_dict_gen, List.singleton_append] at hp
      rcases List.mem_cons.mp hp with hp | hp
      · rw [hp]
        rfl
      · exact ih2 p hp)

theorem flatten_dict_gen_append (l₁ l₂ : List (String × Val))
    (parent : Option String) (delimiter : String) :
    flatten_dict_gen (l₁ ++ l₂) parent delimiter
      = flatten_dict_gen l₁ parent delimiter ++ flatten_dict_gen l₂ parent delimiter := by
  induction l₁ with
  | nil => simp [flatten_dict_gen]
  | cons p rest ih =>
    obtain ⟨k, v⟩ := p
    simp only [List.cons_append]
    cases v
    case obj entries =>
      have h1 : ∀ l, flatten_dict_gen ((k, Val.obj entries) :: l) parent delimiter
          = pyDict (flatten_dict_gen entries (some (joinKey parent delimiter k)) delimiter)
            ++ flatten_dict_gen l parent delimiter := by
        intro l
        simp only [flatten_dict_gen]
      rw [h1, h1, ih, List.append_assoc]
    all_goals (
      simp only [flatten_dict_gen, List.singleton_append]
      rw [ih, List.cons_append])

/-- An entry whose value is the empty mapping contributes nothing to the
generator's output. -/
theorem flatten_dict_gen_remove_empty (d₁ d₂ : List (String × Val)) (k : String)
    (parent : Option String) (delimiter : String) :
    flatten_dict_gen (d₁ ++ (k, Val.obj []) :: d₂) parent delimiter
      = flatten_dict_gen (d₁ ++ d₂) parent delimiter := by
  rw [flatten_dict_gen_append, flatten_dict_gen_append]
  have hmid : flatten_dict_gen ((k, Val.obj []) :: d₂) parent delimiter
      = flatten_dict_gen d₂ parent delimiter := by
    simp only [flatten_dict_gen]
    simp [pyDict]
  rw [hmid]

end utils

/-! ### The aggregation engine

Both `aggregation.py` and `aggregate_json.py` define `agg_values_by_key` with
the same configuration interface:

* `agg_fns : Option (List (K × Option (FnSet α β)))` models the Python
  parameter `agg_fns: AggregationFunctionsByKey | None`; an entry whose value
  is `none` is the drop marker (`{'a': None}`).
* `default_agg_fns : Option (FnSet α β)` models
  `default_agg_fns: AggregationFunctions | None`.

Aggregation functions take the list of collected values (of type `α`) to an
arbitrary result type `β`, exactly as the Python callables take `list -> Any`.
-/

/-- `AggregationFunctions` / `AGG_FNS`: a Python dict from function name to
aggregation function, modelled as an association list. -/
abbrev FnSet (α β : Type) := List (String × (List α → β))

/-- Message of the `ValueError` raised when both configurations are `None`. -/
def valueErrorMsg : String :=
  "Both agg_fns and default_agg_fns cannot be None at the same time."

/-- `agg_fns.get(key, default_agg_fns)` evaluated after
`agg_fns = {} if agg_fns is None else agg_fns` — the effective aggregation
spec for `key`: the per-key entry when `key` is listed (even when its value is
the drop marker `none`), and `default_agg_fns` otherwise. -/
def resolveSpec {K : Type} [DecidableEq K] {α β : Type}
    (agg_fns : Option (List (K × Option (FnSet α β))))
    (default_agg_fns : Option (FnSet α β)) (key : K) : Option (FnSet α β) :=
  (lookup (agg_fns.getD []) key).getD default_agg_fns

/-- The dict comprehension
`{agg_fn_name: agg_fn(values) for agg_fn_name, agg_fn in key_agg_fns.items()}`. -/
def applyFns {α β : Type} (key_agg_fns : FnSet α β) (values : List α) :
    List (String × β) :=
  pyDict (key_agg_fns.map (fun p => (p.1, p.2 values)))

namespace aggregation

/-! ### `src/json_aggregator/aggregation.py` -/

variable {K : Type} [DecidableEq K] {α β : Type}

/-- One `merged[key].append(value)` step on a `defaultdict(list)`: append to
the existing list in place, or create the key's entry (at the end) with the
one-element list. -/
def insertAppend : List (K × List α) → K → α → List (K × List α)
  | [], k, v => [(k, [v])]
  | (k', vs) :: rest, k, v =>
    if k' = k then (k', vs ++ [v]) :: rest else (k', vs) :: insertAppend rest k v

/-- `merge_dicts`: fold every key/value pair of every dictionary, in order,
into an (initially empty) `defaultdict(list)`. -/
def merge_dicts (dicts : List (List (K × α))) : List (K × List α) :=
  dicts.foldl (fun merged d => d.foldl (fun m p => insertAppend m p.1 p.2) merged) []

/-- `agg_values_by_key` of `aggregation.py`: raise when both configurations
are `None`; otherwise walk the entries of `merge_dicts(dicts)` and, for every
key whose resolved spec is not `None`, emit the sub-dict of applied
functions.  (`merge_dicts` output is a dict, so its keys are distinct and the
loop's `out_dict[key] = ...` assignments append fresh keys.) -/
def agg_values_by_key (dicts : List (List (K × α)))
    (agg_fns : Option (List (K × Option (FnSet α β))))
    (default_agg_fns : Option (FnSet α β)) :
    Except PyErr (List (K × List (String × β))) :=
  if agg_fns.isNone ∧ default_agg_fns.isNone then
    .error (.valueError valueErrorMsg)
  else
    .ok ((merge_dicts dicts).filterMap (fun p =>
      (resolveSpec agg_fns default_agg_fns p.1).map
        (fun key_agg_fns => (p.1, applyFns key_agg_fns p.2))))

/-- The values carried by key `k` among a flat list of key/value pairs, in
order. -/
def pvals (k : K) (pairs : List (K × α)) : List α :=
  pairs.filterMap (fun p => if p.1 = k then some p.2 else none)

theorem lookup_insertAppend (m : List (K × List α)) (k : K) (v : α) (k' : K) :
    lookup (insertAppend m k v) k'
      = if k = k' then some ((lookup m k).getD [] ++ [v]) else lookup m k' := by
  induction m with
  | nil =>
    by_cases h : k = k' <;> simp [insertAppend, h]
  | cons p rest ih =>
    obtain ⟨k₀, vs₀⟩ := p
    by_cases h₀ : k₀ = k
    · subst h₀
      by_cases h₁ : k₀ = k'
      · subst h₁
        simp [insertAppend]
      · simp [insertAppend, h₁]
    · have hrw : insertAppend ((k₀, vs₀) :: rest) k v = (k₀, vs₀) :: insertAppend rest k v := by
        simp [insertAppend, h₀]
      rw [hrw]
      by_cases h₁ : k₀ = k'
      · subst h₁
        have hne : ¬ k = k₀ := fun h => h₀ h.symm
        simp [hne, h₀]
      · simp [h₁, ih, h₀]

@[simp] theorem pvals_nil (k : K) : pvals k ([] : List (K × α)) = [] := rfl

theorem pvals_cons (k k₀ : K) (v₀ : α) (pairs : List (K × α)) :
    pvals k ((k₀, v₀) :: pairs)
      = if k₀ = k then v₀ :: pvals k pairs else pvals k pairs := by
  by_cases h : k₀ = k <;> simp [pvals, List.filterMap_cons, h]

theorem lookup_foldl_insertAppend (pairs : List (K × α)) (m : List (K × List α)) (k : K) :
    lookup (pairs.foldl (fun m p => insertAppend m p.1 p.2) m) k
      = match lookup m k with
        | some vs => some (vs ++ pvals k pairs)
        | none =>
          if k ∈ pairs.map Prod.fst then some (pvals k pairs) else none := by
  induction pairs generalizing m with
  | nil =>
    cases h : lookup m k
    · simp [h]
    · simp [h]
  | cons p rest ih =>
    obtain ⟨k₀, v₀⟩ := p
    simp only [List.foldl_cons]
    rw [ih, lookup_insertAppend, pvals_cons]
    by_cases h₀ : k₀ = k
    · subst h₀
      simp only [if_pos rfl]
      cases h : lookup m k₀
      · simp [h]
      · simp [h]
    · simp only [if_neg h₀]
      cases h : lookup m k
      · have hne : ¬ k = k₀ := fun hh => h₀ hh.symm
        simp only [h, List.map_cons]
        by_cases hm : k ∈ List.map Prod.fst rest
        · rw [if_pos hm, if_pos (List.mem_cons_of_mem _ hm)]
        · rw [if_neg hm, if_neg (fun hc => (List.mem_cons.mp hc).elim (fun h1 => hne h1) hm)]
      · simp [h]

theorem merge_dicts_eq_foldl_flatten (dicts : List (List (K × α))) :
    merge_dicts dicts
      = (dicts.flatten).foldl (fun m p => insertAppend m p.1 p.2) [] := by
  suffices H : ∀ (dicts : List (List (K × α))) (m : List (K × List α)),
      dicts.foldl (fun merged d => d.foldl (fun m p => insertAppend m p.1 p.2) merged) m
        = (dicts.flatten).foldl (fun m p => insertAppend m p.1 p.2) m by
    exact H dicts []
  intro dicts
  induction dicts with
  | nil => intro m; simp
  | cons d rest ih =>
    intro m
    simp only [List.foldl_cons, List.flatten_cons, List.foldl_append]
    exact ih _

theorem pvals_eq_lookup_toList {d : List (K × α)} (hd : (keys d).Nodup) (k : K) :
    pvals k d = (lookup d k).toList := by
  induction d with
  | nil => simp
  | cons p rest ih =>
    obtain ⟨k₀, v₀⟩ := p
    have hd' : (keys rest).Nodup := by
      simp only [keys, List.map_cons, List.nodup_cons] at hd
      exact hd.2
    by_cases h₀ : k₀ = k
    · subst h₀
      have hk : k₀ ∉ keys rest := by
        simp only [keys, List.map_cons, List.nodup_cons] at hd
        exact hd.1
      have hrest : pvals k₀ rest = [] := by
        rw [ih hd']
        rw [(lookup_eq_none_iff rest k₀).mpr hk]
        rfl
      rw [pvals_cons, if_pos rfl, hrest]
      simp
    · rw [pvals_cons, if_neg h₀]
      simp only [lookup_cons, if_neg h₀]
      exact ih hd'

theorem pvals_flatten (dicts : List (List (K × α)))
    (hn : ∀ d ∈ dicts, (keys d).Nodup) (k : K) :
    pvals k dicts.flatten = dicts.filterMap (fun d => lookup d k) := by
  induction dicts with
  | nil => simp
  | cons d rest ih =>
    simp only [List.flatten_cons, List.filterMap_cons]
    have happ : pvals k (d ++ rest.flatten) = pvals k d ++ pvals k rest.flatten := by
      simp [pvals, List.filterMap_append]
    rw [happ, pvals_eq_lookup_toList (hn d (by simp)) k,
      ih (fun d' hd' => hn d' (by simp [hd']))]
    cases h : lookup d k <;> simp [h]

omit [DecidableEq K] in
theorem mem_flatten_keys (dicts : List (List (K × α))) (k : K) :
    k ∈ (dicts.flatten).map Prod.fst ↔ ∃ d ∈ dicts, k ∈ keys d := by
  simp only [keys, List.mem_map, List.mem_flatten]
  constructor
  · rintro ⟨p, ⟨d, hd, hp⟩, hk⟩
    exact ⟨d, hd, p, hp, hk⟩
  · rintro ⟨d, hd, p, hp, hk⟩
    exact ⟨p, ⟨d, hd, hp⟩, hk⟩

/-- Characterization of `merge_dicts` on genuine documents (distinct keys in
each document): a key of some document maps to exactly the values of the
documents containing it, in document order; any other key is absent. -/
theorem lookup_merge_dicts (dicts : List (List (K × α)))
    (hn : ∀ d ∈ dicts, (keys d).Nodup) (k : K) :
    lookup (merge_dicts dicts) k
      = if ∃ d ∈ dicts, k ∈ keys d
        then some (dicts.filterMap (fun d => lookup d k))
        else none := by
  rw [merge_dicts_eq_foldl_flatten, lookup_foldl_insertAppend]
  simp only [lookup_nil]
  rw [pvals_flatten dicts hn k]
  by_cases h : k ∈ (dicts.flatten).map Prod.fst
  · rw [if_pos h, if_pos ((mem_flatten_keys dicts k).mp h)]
  · rw [if_neg h, if_neg (fun hh => h ((mem_flatten_keys dicts k).mpr hh))]

theorem keys_insertAppend (m : List (K × List α)) (k : K) (v : α) :
    keys (insertAppend m k v) = if k ∈ keys m then keys m else keys m ++ [k] := by
  induction m with
  | nil => simp [insertAppend, keys]
  | cons p rest ih =>
    obtain ⟨k₀, vs₀⟩ := p
    by_cases h₀ : k₀ = k
    · subst h₀
      have hmem : k₀ ∈ keys ((k₀, vs₀) :: rest) := by simp [keys]
      rw [if_pos hmem]
      simp [insertAppend, keys]
    · have hrw : insertAppend ((k₀, vs₀) :: rest) k v = (k₀, vs₀) :: insertAppend rest k v := by
        simp [insertAppend, h₀]
      have hne : ¬ k = k₀ := fun h => h₀ h.symm
      have hks : keys ((k₀, vs₀) :: rest) = k₀ :: keys rest := by simp [keys]
      rw [hrw]
      by_cases hm : k ∈ keys rest
      · rw [if_pos (by rw [hks]; exact List.mem_cons_of_mem _ hm)]
        have : keys (insertAppend rest k v) = keys rest := by rw [ih, if_pos hm]
        simp only [keys, List.map_cons] at this ⊢
        rw [this]
      · rw [if_neg (by
          rw [hks]
          intro hcon
          rcases List.mem_cons.mp hcon with h | h
          · exact hne h
          · exact hm h)]
        have : keys (insertAppend rest k v) = keys rest ++ [k] := by rw [ih, if_neg hm]
        simp only [keys, List.map_cons] at this ⊢
        rw [this]
        simp

theorem keys_merge_dicts_nodup (dicts : List (List (K × α))) :
    (keys (merge_dicts dicts)).Nodup := by
  rw [merge_dicts_eq_foldl_flatten]
  suffices H : ∀ (pairs : List (K × α)) (m : List (K × List α)), (keys m).Nodup →
      (keys (pairs.foldl (fun m p => insertAppend m p.1 p.2) m)).Nodup by
    exact H _ [] (by simp [keys])
  intro pairs
  induction pairs with
  | nil => intro m hm; simpa using hm
  | cons p rest ih =>
    intro m hm
    simp only [List.foldl_cons]
    refine ih _ ?_
    rw [keys_insertAppend]
    split
    · exact hm
    · rename_i hnot
      simp [List.nodup_append, hm, hnot]

end aggregation

namespace aggregate_json

/-! ### `src/json_aggregator/aggregate_json.py` -/

variable {K : Type} [DecidableEq K] {α β : Type}

/-- `set().union(*dicts)`: the union of the key sets of all dictionaries.  A
Python `set` fixes no enumeration order; the embedding enumerates it as the
deduplicated concatenation of the key lists. -/
def unionKeys (dicts : List (List (K × α))) : List K :=
  ((dicts.map keys).flatten).dedup

/-- `agg_values_by_key` of `aggregate_json.py`: raise when both configurations
are `None`; otherwise, for every key of the union of the documents' key sets
whose resolved spec is not `None`, collect `[d[key] for d in dicts if key in d]`
and emit the sub-dict of applied functions. -/
def agg_values_by_key (dicts : List (List (K × α)))
    (agg_fns : Option (List (K × Option (FnSet α β))))
    (default_agg_fns : Option (FnSet α β)) :
    Except PyErr (List (K × List (String × β))) :=
  if agg_fns.isNone ∧ default_agg_fns.isNone then
    .error (.valueError valueErrorMsg)
  else
    .ok ((unionKeys dicts).filterMap (fun key =>
      (resolveSpec agg_fns default_agg_fns key).map
        (fun key_agg_fns =>
          (key, applyFns key_agg_fns (dicts.filterMap (fun d => lookup d key))))))

/-- `_DROP_KEYWORD = "drop"`. -/
def dropKeyword : String := "drop"

/-- Message of the `ValueError` raised when `drop` is combined with other
function names. -/
def dropCombinedMsg : String :=
  "`drop` cannot be combined with other aggregation functions."

/-- The dict comprehension `{fn_name: agg_fns[fn_name] for fn_name in names}`
inside `agg_fns_from_names`: subscripting the registry with an unknown name
raises `KeyError`; names are looked up left to right. -/
def fnsForNames {φ : Type} (agg_fns : List (String × φ)) :
    List String → Except PyErr (List (String × φ))
  | [] => .ok []
  | n :: rest =>
    match lookup agg_fns n with
    | some f => (fnsForNames agg_fns rest).map (fun l => (n, f) :: l)
    | none => .error (.keyError n)

/-- `agg_fns_from_names`: `drop` among the names is only legal alone (and
yields the drop marker `none`); otherwise build the name → function dict from
the registry. -/
def agg_fns_from_names {φ : Type} (agg_fns : List (String × φ)) (names : List String) :
    Except PyErr (Option (List (String × φ))) :=
  if dropKeyword ∈ names then
    if names.length ≠ 1 then .error (.valueError dropCombinedMsg)
    else .ok none
  else (fnsForNames agg_fns names).map (fun l => some (pyDict l))

end aggregate_json

section AggChar

variable {K : Type} [DecidableEq K] {α β : Type}

omit [DecidableEq K] in
theorem mem_keys_filterMap_entries {A B : Type} (l : List (K × A))
    (g : K → A → Option B) (k : K)
    (h : k ∈ keys (l.filterMap (fun p => (g p.1 p.2).map (fun b => (p.1, b))))) :
    k ∈ keys l := by
  simp only [keys, List.mem_map] at h ⊢
  obtain ⟨q, hq, hqk⟩ := h
  rw [List.mem_filterMap] at hq
  obtain ⟨p, hp, hgp⟩ := hq
  cases hg : g p.1 p.2 with
  | none => rw [hg] at hgp; simp at hgp
  | some b =>
    rw [hg] at hgp
    have hq : (p.1, b) = q := Option.some.inj hgp
    exact ⟨p, hp, by rw [← hqk, ← hq]⟩

theorem lookup_filterMap_entries {A B : Type} (l : List (K × A)) (g : K → A → Option B)
    (hn : (keys l).Nodup) (k : K) :
    lookup (l.filterMap (fun p => (g p.1 p.2).map (fun b => (p.1, b)))) k
      = (lookup l k).bind (fun a => g k a) := by
  induction l with
  | nil => simp
  | cons p rest ih =>
    obtain ⟨k₀, a₀⟩ := p
    have hn' : (keys rest).Nodup := by
      simp only [keys, List.map_cons, List.nodup_cons] at hn
      exact hn.2
    have hk₀ : k₀ ∉ keys rest := by
      simp only [keys, List.map_cons, List.nodup_cons] at hn
      exact hn.1
    simp only [List.filterMap_cons]
    cases hg : g k₀ a₀ with
    | none =>
      simp only [Option.map_none']
      by_cases h₀ : k₀ = k
      · subst h₀
        have hnone : lookup (rest.filterMap (fun p => (g p.1 p.2).map (fun b => (p.1, b)))) k₀
            = none :=
          (lookup_eq_none_iff _ _).mpr
            (fun hmem => hk₀ (mem_keys_filterMap_entries rest g k₀ hmem))
        rw [hnone]
        simp [hg]
      · rw [ih hn']
        simp [h₀]
    | some b =>
      simp only [Option.map_some']
      by_cases h₀ : k₀ = k
      · subst h₀
        simp [hg]
      · simp [h₀, ih hn']

omit [DecidableEq K] in
theorem mem_keys_filterMap_keys {B : Type} (ks : List K) (h : K → Option B) (k : K)
    (hm : k ∈ keys (ks.filterMap (fun k' => (h k').map (fun b => (k', b))))) : k ∈ ks := by
  simp only [keys, List.mem_map] at hm
  obtain ⟨q, hq, hqk⟩ := hm
  rw [List.mem_filterMap] at hq
  obtain ⟨k', hk', hgk⟩ := hq
  cases hg : h k' with
  | none => rw [hg] at hgk; simp at hgk
  | some b =>
    rw [hg] at hgk
    have hq : (k', b) = q := Option.some.inj hgk
    rw [← hqk, ← hq]
    exact hk'

theorem lookup_filterMap_keys {B : Type} (ks : List K) (h : K → Option B)
    (hn : ks.Nodup) (k : K) :
    lookup (ks.filterMap (fun k' => (h k').map (fun b => (k', b)))) k
      = if k ∈ ks then h k else none := by
  induction ks with
  | nil => simp
  | cons k₀ rest ih =>
    have hn' : rest.Nodup := (List.nodup_cons.mp hn).2
    have hk₀ : k₀ ∉ rest := (List.nodup_cons.mp hn).1
    simp only [List.filterMap_cons]
    cases hg : h k₀ with
    | none =>
      simp only [Option.map_none']
      rw [ih hn']
      by_cases h₀ : k₀ = k
      · subst h₀
        rw [if_neg hk₀, if_pos (List.mem_cons_self _ _), hg]
      · have hne : ¬ k = k₀ := fun hh => h₀ hh.symm
        by_cases hm : k ∈ rest
        · rw [if_pos hm, if_pos (List.mem_cons_of_mem _ hm)]
        · rw [if_neg hm, if_neg (fun hc => (List.mem_cons.mp hc).elim hne hm)]
    | some b =>
      simp only [Option.map_some']
      by_cases h₀ : k₀ = k
      · subst h₀
        simp [hg]
      · simp only [lookup_cons, if_neg h₀]
        rw [ih hn']
        have hne : ¬ k = k₀ := fun hh => h₀ hh.symm
        by_cases hm : k ∈ rest
        · rw [if_pos hm, if_pos (List.mem_cons_of_mem _ hm)]
        · rw [if_neg hm, if_neg (fun hc => (List.mem_cons.mp hc).elim hne hm)]

theorem mem_unionKeys (dicts : List (List (K × α))) (k : K) :
    k ∈ aggregate_json.unionKeys dicts ↔ ∃ d ∈ dicts, k ∈ keys d := by
  simp only [aggregate_json.unionKeys, List.mem_dedup, List.mem_flatten, List.mem_map]
  constructor
  · rintro ⟨l, ⟨d, hd, rfl⟩, hk⟩
    exact ⟨d, hd, hk⟩
  · rintro ⟨d, hd, hk⟩
    exact ⟨keys d, ⟨d, hd, rfl⟩, hk⟩

theorem applyFns_eq_map {fns : FnSet α β} (hn : (keys fns).Nodup) (values : List α) :
    applyFns fns values = fns.map (fun p => (p.1, p.2 values)) := by
  refine pyDict_eq_self ?_
  have : keys (fns.map (fun p => (p.1, p.2 values))) = keys fns := by
    simp [keys, List.map_map, Function.comp]
  rw [this]
  exact hn

/-- Well-formedness of a configuration: every function set appearing in it is
a Python dict, i.e. has distinct function names. -/
def SpecsWF (agg_fns : Option (List (K × Option (FnSet α β))))
    (default_agg_fns : Option (FnSet α β)) : Prop :=
  (∀ p ∈ agg_fns.getD [], ∀ fns, p.2 = some fns → (keys fns).Nodup) ∧
  (∀ fns, default_agg_fns = some fns → (keys fns).Nodup)

theorem resolveSpec_nodup {agg_fns : Option (List (K × Option (FnSet α β)))}
    {default_agg_fns : Option (FnSet α β)}
    (hwf : SpecsWF agg_fns default_agg_fns) {k : K} {fns : FnSet α β}
    (h : resolveSpec agg_fns default_agg_fns k = some fns) : (keys fns).Nodup := by
  unfold resolveSpec at h
  cases hl : lookup (agg_fns.getD []) k with
  | none =>
    rw [hl] at h
    simp only [Option.getD_none] at h
    exact hwf.2 fns h
  | some s =>
    rw [hl] at h
    simp only [Option.getD_some] at h
    exact hwf.1 _ (mem_of_lookup_eq_some hl) fns h

/-- `agg_values_by_key` of `aggregation.py` succeeds whenever one of the two
configurations is set, and the resulting dict maps a key `k` to the applied
resolved spec over the values collected in document order — exactly when `k`
occurs in some document and its resolved spec is not the drop marker. -/
theorem lookup_agg_m (dicts : List (List (K × α)))
    (agg_fns : Option (List (K × Option (FnSet α β))))
    (default_agg_fns : Option (FnSet α β))
    (hdocs : ∀ d ∈ dicts, (keys d).Nodup)
    (h : ¬(agg_fns = none ∧ default_agg_fns = none)) :
    ∃ out, aggregation.agg_values_by_key dicts agg_fns default_agg_fns = .ok out ∧
      ∀ k, lookup out k
        = if ∃ d ∈ dicts, k ∈ keys d
          then (resolveSpec agg_fns default_agg_fns k).map
            (fun fns => applyFns fns (dicts.filterMap (fun d => lookup d k)))
          else none := by
  have hcond : ¬(agg_fns.isNone ∧ default_agg_fns.isNone) := by
    simp only [Option.isNone_iff_eq_none]
    exact h
  refine ⟨_, by rw [aggregation.agg_values_by_key, if_neg hcond], ?_⟩
  intro k
  have hfun : (fun p : K × List α =>
        (resolveSpec agg_fns default_agg_fns p.1).map
          (fun key_agg_fns => (p.1, applyFns key_agg_fns p.2)))
      = (fun p : K × List α =>
          ((fun k' vs => (resolveSpec agg_fns default_agg_fns k').map
              (fun fns => applyFns fns vs)) p.1 p.2).map (fun b => (p.1, b))) := by
    funext p
    cases hr : resolveSpec agg_fns default_agg_fns p.1 <;> simp [hr]
  rw [hfun, lookup_filterMap_entries (aggregation.merge_dicts dicts)
      (fun k' vs => (resolveSpec agg_fns default_agg_fns k').map (fun fns => applyFns fns vs))
      (aggregation.keys_merge_dicts_nodup dicts) k,
    aggregation.lookup_merge_dicts dicts hdocs k]
  by_cases hk : ∃ d ∈ dicts, k ∈ keys d
  · rw [if_pos hk, if_pos hk]
    rfl
  · rw [if_neg hk, if_neg hk]
    rfl

/-- `agg_values_by_key` of `aggregate_json.py` succeeds whenever one of the
two configurations is set, with the same per-key characterization. -/
theorem lookup_agg_j (dicts : List (List (K × α)))
    (agg_fns : Option (List (K × Option (FnSet α β))))
    (default_agg_fns : Option (FnSet α β))
    (h : ¬(agg_fns = none ∧ default_agg_fns = none)) :
    ∃ out, aggregate_json.agg_values_by_key dicts agg_fns default_agg_fns = .ok out ∧
      ∀ k, lookup out k
        = if ∃ d ∈ dicts, k ∈ keys d
          then (resolveSpec agg_fns default_agg_fns k).map
            (fun fns => applyFns fns (dicts.filterMap (fun d => lookup d k)))
          else none := by
  have hcond : ¬(agg_fns.isNone ∧ default_agg_fns.isNone) := by
    simp only [Option.isNone_iff_eq_none]
    exact h
  refine ⟨_, by rw [aggregate_json.agg_values_by_key, if_neg hcond], ?_⟩
  intro k
  have hfun : (fun key : K =>
        (resolveSpec agg_fns default_agg_fns key).map
          (fun key_agg_fns =>
            (key, applyFns key_agg_fns (dicts.filterMap (fun d => lookup d key)))))
      = (fun key : K =>
          ((fun k' : K => (resolveSpec agg_fns default_agg_fns k').map
              (fun fns => applyFns fns (dicts.filterMap (fun d => lookup d k')))) key).map
            (fun b => (key, b))) := by
    funext key
    cases hr : resolveSpec agg_fns default_agg_fns key <;> simp [hr]
  rw [hfun, lookup_filterMap_keys (aggregate_json.unionKeys dicts)
      (fun k' : K => (resolveSpec agg_fns default_agg_fns k').map
        (fun fns => applyFns fns (dicts.filterMap (fun d => lookup d k'))))
      (by unfold aggregate_json.unionKeys; exact List.nodup_dedup _) k]
  by_cases hk : ∃ d ∈ dicts, k ∈ keys d
  · rw [if_pos ((mem_unionKeys dicts k).mpr hk), if_pos hk]
  · rw [if_neg (fun hc => hk ((mem_unionKeys dicts k).mp hc)), if_neg hk]

theorem length_filterMap_eq_countP {A B : Type} (l : List A) (f : A → Option B) :
    (l.filterMap f).length = l.countP (fun a => (f a).isSome) := by
  induction l with
  | nil => rfl
  | cons a rest ih =>
    simp only [List.filterMap_cons]
    cases h : f a
    · simp [List.countP_cons, h, ih]
    · simp [List.countP_cons, h, ih]

theorem not_mem_agg_m_of_resolve_none
    {dicts : List (List (K × α))} {agg_fns : Option (List (K × Option (FnSet α β)))}
    {default_agg_fns : Option (FnSet α β)} {k : K} {out : List (K × List (String × β))}
    (hr : resolveSpec agg_fns default_agg_fns k = none)
    (hok : aggregation.agg_values_by_key dicts agg_fns default_agg_fns = .ok out) :
    k ∉ keys out := by
  rw [aggregation.agg_values_by_key] at hok
  split at hok
  · simp at hok
  · simp only [Except.ok.injEq] at hok
    subst hok
    intro hmem
    simp only [keys, List.mem_map] at hmem
    obtain ⟨q, hq, hqk⟩ := hmem
    rw [List.mem_filterMap] at hq
    obtain ⟨p, hp, hf⟩ := hq
    cases hres : resolveSpec agg_fns default_agg_fns p.1 with
    | none => rw [hres] at hf; simp at hf
    | some fns =>
      rw [hres] at hf
      simp only [Option.map_some'] at hf
      have hq1 : q.1 = p.1 := by rw [← Option.some.inj hf]
      have hkp : k = p.1 := by rw [← hqk]; exact hq1
      rw [hkp, hres] at hr
      simp at hr

theorem not_mem_agg_j_of_resolve_none
    {dicts : List (List (K × α))} {agg_fns : Option (List (K × Option (FnSet α β)))}
    {default_agg_fns : Option (FnSet α β)} {k : K} {out : List (K × List (String × β))}
    (hr : resolveSpec agg_fns default_agg_fns k = none)
    (hok : aggregate_json.agg_values_by_key dicts agg_fns default_agg_fns = .ok out) :
    k ∉ keys out := by
  rw [aggregate_json.agg_values_by_key] at hok
  split at hok
  · simp at hok
  · simp only [Except.ok.injEq] at hok
    subst hok
    intro hmem
    simp only [keys, List.mem_map] at hmem
    obtain ⟨q, hq, hqk⟩ := hmem
    rw [List.mem_filterMap] at hq
    obtain ⟨k', hk', hf⟩ := hq
    cases hres : resolveSpec agg_fns default_agg_fns k' with
    | none => rw [hres] at hf; simp at hf
    | some fns =>
      rw [hres] at hf
      simp only [Option.map_some'] at hf
      have hq1 : q.1 = k' := by rw [← Option.some.inj hf]
      have hkp : k = k' := by rw [← hqk]; exact hq1
      rw [hkp, hres] at hr
      simp at hr

end AggChar

/-! ## The claims -/

/-- Claim C2: `merge_dicts` maps every key appearing in some document to the
list of that key's values drawn exactly from the documents containing it, in
document order (no placeholders); its key set is the union of the documents'
key sets; the value list's length is the number of documents containing the
key; and the empty document sequence yields the empty mapping. -/
theorem claim_C2_merge_dicts {K : Type} [DecidableEq K] {α : Type}
    (dicts : List (List (K × α))) (hdocs : ∀ d ∈ dicts, (keys d).Nodup) :
    (∀ k, lookup (aggregation.merge_dicts dicts) k
        = if ∃ d ∈ dicts, k ∈ keys d
          then some (dicts.filterMap (fun d => lookup d k)) else none)
    ∧ (∀ k, k ∈ keys (aggregation.merge_dicts dicts) ↔ ∃ d ∈ dicts, k ∈ keys d)
    ∧ (∀ k, (dicts.filterMap (fun d => lookup d k)).length
        = dicts.countP (fun d => decide (k ∈ keys d)))
    ∧ aggregation.merge_dicts ([] : List (List (K × α))) = [] := by
  refine ⟨fun k => aggregation.lookup_merge_dicts dicts hdocs k, fun k => ?_, fun k => ?_, rfl⟩
  · rw [← lookup_isSome_iff, aggregation.lookup_merge_dicts dicts hdocs k]
    by_cases h : ∃ d ∈ dicts, k ∈ keys d
    · rw [if_pos h]
      simpa using h
    · rw [if_neg h]
      simpa using h
  · rw [length_filterMap_eq_countP]
    refine List.countP_congr (fun d _ => ?_)
    by_cases h : k ∈ keys d
    · simp [h, (lookup_isSome_iff d k).mpr h]
    · have : lookup d k = none := (lookup_eq_none_iff d k).mpr h
      simp [h, this]

/-- Witness for C2 at a concrete pair of documents. -/
theorem claim_C2_merge_dicts_witness :
    (∀ d ∈ ([[("a", 1), ("b", 2)], [("a", 3), ("c", 4)]] : List (List (String × Int))),
      (keys d).Nodup)
    ∧ lookup (aggregation.merge_dicts
        ([[("a", 1), ("b", 2)], [("a", 3), ("c", 4)]] : List (List (String × Int)))) "a"
      = some [1, 3] := by
  refine ⟨by decide, ?_⟩
  have h := (claim_C2_merge_dicts
    ([[("a", 1), ("b", 2)], [("a", 3), ("c", 4)]] : List (List (String × Int)))
    (by decide)).1 "a"
  rw [h]
  decide

/-- Claim C3: with both configurations unset, both implementations of
`agg_values_by_key` raise the configuration `ValueError` for every documents
list — the error value carries no aggregation result; with at least one of
them set, no error is raised (the call returns a result). -/
theorem claim_C3_config_error {K : Type} [DecidableEq K] {α β : Type} :
    (∀ dicts : List (List (K × α)),
      aggregation.agg_values_by_key dicts
          (none : Option (List (K × Option (FnSet α β)))) (none : Option (FnSet α β))
        = .error (.valueError valueErrorMsg)
      ∧ aggregate_json.agg_values_by_key dicts
          (none : Option (List (K × Option (FnSet α β)))) (none : Option (FnSet α β))
        = .error (.valueError valueErrorMsg))
    ∧ (∀ (dicts : List (List (K × α)))
        (agg_fns : Option (List (K × Option (FnSet α β))))
        (default_agg_fns : Option (FnSet α β)),
        ¬(agg_fns = none ∧ default_agg_fns = none) →
        (∃ out, aggregation.agg_values_by_key dicts agg_fns default_agg_fns = .ok out)
        ∧ (∃ out, aggregate_json.agg_values_by_key dicts agg_fns default_agg_fns = .ok out)) := by
  constructor
  · intro dicts
    constructor
    · rw [aggregation.agg_values_by_key, if_pos (by simp)]
    · rw [aggregate_json.agg_values_by_key, if_pos (by simp)]
  · intro dicts agg_fns default_agg_fns h
    have hcond : ¬(agg_fns.isNone ∧ default_agg_fns.isNone) := by
      simp only [Option.isNone_iff_eq_none]
      exact h
    constructor
    · exact ⟨_, by rw [aggregation.agg_values_by_key, if_neg hcond]⟩
    · exact ⟨_, by rw [aggregate_json.agg_values_by_key, if_neg hcond]⟩

/-- Witness for C3 at a concrete configuration with only the default set. -/
theorem claim_C3_config_error_witness :
    (¬((none : Option (List (String × Option (FnSet Int Int)))) = none
        ∧ (some [] : Option (FnSet Int Int)) = none))
    ∧ ((∃ out, aggregation.agg_values_by_key ([[("a", 1)]] : List (List (String × Int)))
          (none : Option (List (String × Option (FnSet Int Int)))) (some []) = .ok out)
      ∧ (∃ out, aggregate_json.agg_values_by_key ([[("a", 1)]] : List (List (String × Int)))
          (none : Option (List (String × Option (FnSet Int Int)))) (some []) = .ok out)) :=
  ⟨by simp, claim_C3_config_error.2 [[("a", 1)]] none (some []) (by simp)⟩

/-- Claim C8: the two implementations of `agg_values_by_key` are
extensionally equal on genuine documents: they raise the configuration error
under exactly the same condition, and otherwise their result dicts agree on
every key. -/
theorem claim_C8_refinement {K : Type} [DecidableEq K] {α β : Type}
    (dicts : List (List (K × α)))
    (agg_fns : Option (List (K × Option (FnSet α β))))
    (default_agg_fns : Option (FnSet α β))
    (hdocs : ∀ d ∈ dicts, (keys d).Nodup) :
    (agg_fns = none ∧ default_agg_fns = none →
      aggregation.agg_values_by_key dicts agg_fns default_agg_fns
          = .error (.valueError valueErrorMsg)
        ∧ aggregate_json.agg_values_by_key dicts agg_fns default_agg_fns
          = .error (.valueError valueErrorMsg))
    ∧ (¬(agg_fns = none ∧ default_agg_fns = none) →
      ∃ out_m out_j,
        aggregation.agg_values_by_key dicts agg_fns default_agg_fns = .ok out_m
        ∧ aggregate_json.agg_values_by_key dicts agg_fns default_agg_fns = .ok out_j
        ∧ ∀ k, lookup out_m k = lookup out_j k) := by
  constructor
  · rintro ⟨rfl, rfl⟩
    constructor
    · rw [aggregation.agg_values_by_key, if_pos (by simp)]
    · rw [aggregate_json.agg_values_by_key, if_pos (by simp)]
  · intro h
    obtain ⟨out_m, hm, hmc⟩ := lookup_agg_m dicts agg_fns default_agg_fns hdocs h
    obtain ⟨out_j, hj, hjc⟩ := lookup_agg_j dicts agg_fns default_agg_fns h
    exact ⟨out_m, out_j, hm, hj, fun k => by rw [hmc k, hjc k]⟩

/-- Witness for C8 at a concrete documents list and configuration. -/
theorem claim_C8_refinement_witness :
    (∀ d ∈ ([[("a", 1), ("b", 2)], [("b", 3)]] : List (List (String × Int))), (keys d).Nodup)
    ∧ (¬((some [("a", some [("count", fun vs => (vs.length : Int))])]
          : Option (List (String × Option (FnSet Int Int)))) = none
        ∧ (some [("sum", fun vs => vs.foldl (· + ·) 0)] : Option (FnSet Int Int)) = none))
    ∧ (∃ out_m out_j,
        aggregation.agg_values_by_key
            ([[("a", 1), ("b", 2)], [("b", 3)]] : List (List (String × Int)))
            (some [("a", some [("count", fun vs => (vs.length : Int))])])
            (some [("sum", fun vs => vs.foldl (· + ·) 0)]) = .ok out_m
        ∧ aggregate_json.agg_values_by_key
            ([[("a", 1), ("b", 2)], [("b", 3)]] : List (List (String × Int)))
            (some [("a", some [("count", fun vs => (vs.length : Int))])])
            (some [("sum", fun vs => vs.foldl (· + ·) 0)]) = .ok out_j
        ∧ ∀ k, lookup out_m k = lookup out_j k) := by
  refine ⟨by decide, by simp, ?_⟩
  exact (claim_C8_refinement
    ([[("a", 1), ("b", 2)], [("b", 3)]] : List (List (String × Int)))
    (some [("a", some [("count", fun vs => (vs.length : Int))])])
    (some [("sum", fun vs => vs.foldl (· + ·) 0)])
    (by decide)).2 (by simp)

/-- Claim C1 as stated is false: it asserts that the output contains exactly
the keys whose resolved spec is a *non-empty* function set, but on
`agg_values_by_key([{'a': 1}], agg_fns={'a': {}}, default_agg_fns=None)` the
resolved spec of `'a'` is the *empty* function set `{}` (which is not `None`),
and the key still appears in the output, mapped to the empty sub-dict. -/
theorem claim_C1_counterexample :
    ¬ (∀ out : List (String × List (String × Int)),
        aggregation.agg_values_by_key [[("a", (1 : Int))]]
            (some [("a", some ([] : FnSet Int Int))]) (none : Option (FnSet Int Int))
          = .ok out →
        ∀ k, k ∈ keys out ↔
          ((∃ d ∈ [[("a", (1 : Int))]], k ∈ keys d)
            ∧ ∃ fns, resolveSpec (some [("a", some ([] : FnSet Int Int))])
                (none : Option (FnSet Int Int)) k = some fns ∧ fns ≠ [])) := by
  intro hclaim
  have h := hclaim [("a", [])] (by rfl) "a"
  have hmem : "a" ∈ keys [(("a" : String), ([] : List (String × Int)))] := by decide
  obtain ⟨-, fns, hfns, hne⟩ := h.mp hmem
  have hres : resolveSpec (some [("a", some ([] : FnSet Int Int))])
      (none : Option (FnSet Int Int)) "a" = some [] := rfl
  rw [hres] at hfns
  exact hne (Option.some.inj hfns).symm

/-- Claim C1, amended: the output of `agg_values_by_key` (either
implementation) contains exactly the keys of the union of the documents' key
sets whose resolved spec is a function set, i.e. not the drop marker `None`
(an empty function set keeps the key, with an empty sub-dict); for each such
key the sub-dict holds exactly the function names of the resolved spec, each
mapped to that function applied to the key's full collected value list. -/
theorem claim_C1_amended {K : Type} [DecidableEq K] {α β : Type}
    (dicts : List (List (K × α)))
    (agg_fns : Option (List (K × Option (FnSet α β))))
    (default_agg_fns : Option (FnSet α β))
    (hdocs : ∀ d ∈ dicts, (keys d).Nodup)
    (hwf : SpecsWF agg_fns default_agg_fns)
    (h : ¬(agg_fns = none ∧ default_agg_fns = none)) :
    ∃ out_m out_j,
      aggregation.agg_values_by_key dicts agg_fns default_agg_fns = .ok out_m
      ∧ aggregate_json.agg_values_by_key dicts agg_fns default_agg_fns = .ok out_j
      ∧ ∀ k,
          (k ∈ keys out_m ↔
            (∃ d ∈ dicts, k ∈ keys d) ∧ resolveSpec agg_fns default_agg_fns k ≠ none)
          ∧ (k ∈ keys out_j ↔
            (∃ d ∈ dicts, k ∈ keys d) ∧ resolveSpec agg_fns default_agg_fns k ≠ none)
          ∧ ∀ fns, resolveSpec agg_fns default_agg_fns k = some fns →
              (∃ d ∈ dicts, k ∈ keys d) →
              lookup out_m k
                  = some (fns.map (fun p => (p.1, p.2 (dicts.filterMap (fun d => lookup d k)))))
              ∧ lookup out_j k
                  = some (fns.map (fun p => (p.1, p.2 (dicts.filterMap (fun d => lookup d k))))) := by
  obtain ⟨out_m, hm, hmc⟩ := lookup_agg_m dicts agg_fns default_agg_fns hdocs h
  obtain ⟨out_j, hj, hjc⟩ := lookup_agg_j dicts agg_fns default_agg_fns h
  refine ⟨out_m, out_j, hm, hj, fun k => ⟨?_, ?_, ?_⟩⟩
  · rw [← lookup_isSome_iff, hmc k]
    by_cases hk : ∃ d ∈ dicts, k ∈ keys d
    · rw [if_pos hk]
      cases hres : resolveSpec agg_fns default_agg_fns k <;> simp [hres, hk]
    · rw [if_neg hk]
      simp [hk]
  · rw [← lookup_isSome_iff, hjc k]
    by_cases hk : ∃ d ∈ dicts, k ∈ keys d
    · rw [if_pos hk]
      cases hres : resolveSpec agg_fns default_agg_fns k <;> simp [hres, hk]
    · rw [if_neg hk]
      simp [hk]
  · intro fns hres hk
    have hfns : (keys fns).Nodup := resolveSpec_nodup hwf hres
    constructor
    · rw [hmc k, if_pos hk, hres]
      simp only [Option.map_some']
      rw [applyFns_eq_map hfns]
    · rw [hjc k, if_pos hk, hres]
      simp only [Option.map_some']
      rw [applyFns_eq_map hfns]

/-- Witness for the amended C1 at a concrete configuration. -/
theorem claim_C1_amended_witness :
    (∀ d ∈ ([[("a", 1), ("b", 2)], [("a", 3), ("b", 4)]] : List (List (String × Int))),
      (keys d).Nodup)
    ∧ (∃ out_m out_j,
        aggregation.agg_values_by_key
            ([[("a", 1), ("b", 2)], [("a", 3), ("b", 4)]] : List (List (String × Int)))
            (some [("a", (none : Option (FnSet Int (List Int))))])
            (some [("list", fun vs => vs)]) = .ok out_m
        ∧ aggregate_json.agg_values_by_key
            ([[("a", 1), ("b", 2)], [("a", 3), ("b", 4)]] : List (List (String × Int)))
            (some [("a", (none : Option (FnSet Int (List Int))))])
            (some [("list", fun vs => vs)]) = .ok out_j) := by
  refine ⟨by decide, ?_⟩
  obtain ⟨out_m, out_j, hm, hj, -⟩ := claim_C1_amended
    ([[("a", 1), ("b", 2)], [("a", 3), ("b", 4)]] : List (List (String × Int)))
    (some [("a", (none : Option (FnSet Int (List Int))))])
    (some [("list", fun vs => vs)])
    (by decide)
    (by
      constructor
      · rintro p hp fns hfns
        simp only [Option.getD_some, List.mem_singleton] at hp
        rw [hp] at hfns
        simp at hfns
      · rintro fns hfns
        simp only [Option.some.injEq] at hfns
        rw [← hfns]
        simp [keys])
    (by simp)
  exact ⟨out_m, out_j, hm, hj⟩

/-- Claim C9: `multi_pattern_glob` returns the concatenation, in pattern
order, of each pattern's match list (no deduplication across patterns), and
when no path matches any pattern it returns the empty list as a normal
result.  The filesystem traversal `Path(path).glob(pattern)` is the external
oracle `glob`. -/
theorem claim_C9_multi_pattern_glob :
    (∀ (glob : String → String → List String) (path : String) (patterns : List String),
      utils.multi_pattern_glob glob path patterns = (patterns.map (glob path)).flatten)
    ∧ (∀ (glob : String → String → List String) (path : String) (patterns : List String),
      (∀ p ∈ patterns, glob path p = []) →
      utils.multi_pattern_glob glob path patterns = []) := by
  have hgen : ∀ (glob : String → String → List String) (path : String)
      (patterns : List String) (acc : List String),
      patterns.foldl (fun matching_files pattern => matching_files ++ glob path pattern) acc
        = acc ++ (patterns.map (glob path)).flatten := by
    intro glob path patterns
    induction patterns with
    | nil => intro acc; simp
    | cons p rest ih =>
      intro acc
      simp only [List.foldl_cons, List.map_cons, List.flatten_cons]
      rw [ih]
      simp
  constructor
  · intro glob path patterns
    rw [utils.multi_pattern_glob, hgen]
    simp
  · intro glob path patterns h
    rw [utils.multi_pattern_glob, hgen]
    simp only [List.nil_append]
    induction patterns with
    | nil => simp
    | cons p rest ih =>
      simp only [List.map_cons, List.flatten_cons, h p (by simp)]
      simpa using ih (fun q hq => h q (by simp [hq]))

/-- Witness for C9 with an oracle that matches nothing. -/
theorem claim_C9_multi_pattern_glob_witness :
    (∀ p ∈ (["*.json", "*.txt"] : List String),
      (fun (_ : String) (_ : String) => ([] : List String)) "root" p = [])
    ∧ utils.multi_pattern_glob (fun _ _ => []) "root" ["*.json", "*.txt"] = [] :=
  ⟨by simp, claim_C9_multi_pattern_glob.2 (fun _ _ => []) "root" ["*.json", "*.txt"]
    (by simp)⟩

theorem fnsForNames_error_keyError {φ : Type} (reg : List (String × φ))
    (names : List String) (e : PyErr)
    (h : aggregate_json.fnsForNames reg names = .error e) : ∃ n, e = .keyError n := by
  induction names with
  | nil => simp [aggregate_json.fnsForNames] at h
  | cons n rest ih =>
    rw [aggregate_json.fnsForNames] at h
    cases hl : lookup reg n with
    | none =>
      rw [hl] at h
      simp only [Except.error.injEq] at h
      exact ⟨n, h.symm⟩
    | some f =>
      rw [hl] at h
      cases hr : aggregate_json.fnsForNames reg rest with
      | ok L => rw [hr] at h; simp [Except.map] at h
      | error e' =>
        rw [hr] at h
        simp only [Except.map, Except.error.injEq] at h
        rw [h] at hr
        exact ih hr

theorem fnsForNames_ok {φ : Type} (reg : List (String × φ)) (names : List String)
    (h : ∀ n ∈ names, n ∈ keys reg) :
    ∃ L, aggregate_json.fnsForNames reg names = .ok L
      ∧ keys L = names ∧ ∀ p ∈ L, lookup reg p.1 = some p.2 := by
  induction names with
  | nil => exact ⟨[], rfl, rfl, by simp⟩
  | cons n rest ih =>
    have hn : (lookup reg n).isSome :=
      (lookup_isSome_iff reg n).mpr (h n (by simp))
    obtain ⟨f, hf⟩ := Option.isSome_iff_exists.mp hn
    obtain ⟨L, hL, hkeys, hmem⟩ := ih (fun n' hn' => h n' (by simp [hn']))
    refine ⟨(n, f) :: L, ?_, ?_, ?_⟩
    · rw [aggregate_json.fnsForNames, hf, hL]
      rfl
    · simp [keys] at hkeys ⊢
      exact hkeys
    · intro p hp
      rcases List.mem_cons.mp hp with hp | hp
      · rw [hp]
        exact hf
      · exact hmem p hp

/-- Claim C7: `agg_fns_from_names` raises the configuration `ValueError`
whenever `drop` appears together with any other name; on exactly `['drop']`
it returns the drop marker `None`; and with `drop` absent it builds the
name-to-registered-function mapping, never raising the configuration error
(an unknown name surfaces as a `KeyError`, not a `ValueError`). -/
theorem claim_C7_agg_fns_from_names {φ : Type} (reg : List (String × φ))
    (names : List String) :
    (aggregate_json.dropKeyword ∈ names →
      (∃ n ∈ names, n ≠ aggregate_json.dropKeyword) →
      aggregate_json.agg_fns_from_names reg names
        = .error (.valueError aggregate_json.dropCombinedMsg))
    ∧ (names = [aggregate_json.dropKeyword] →
      aggregate_json.agg_fns_from_names reg names = .ok none)
    ∧ (aggregate_json.dropKeyword ∉ names →
      (∀ msg, aggregate_json.agg_fns_from_names reg names ≠ .error (.valueError msg))
      ∧ ((∀ n ∈ names, n ∈ keys reg) →
        ∃ m, aggregate_json.agg_fns_from_names reg names = .ok (some m)
          ∧ ∀ n, lookup m n = if n ∈ names then lookup reg n else none)) := by
  refine ⟨?_, ?_, ?_⟩
  · intro hdrop hother
    have hlen : names.length ≠ 1 := by
      intro hlen
      obtain ⟨x, hx⟩ := List.length_eq_one.mp hlen
      subst hx
      obtain ⟨n, hn, hne⟩ := hother
      rcases List.mem_singleton.mp hdrop with rfl
      exact hne (List.mem_singleton.mp hn)
    rw [aggregate_json.agg_fns_from_names, if_pos hdrop, if_pos hlen]
  · rintro rfl
    rfl
  · intro hdrop
    constructor
    · intro msg heq
      rw [aggregate_json.agg_fns_from_names, if_neg hdrop] at heq
      cases hr : aggregate_json.fnsForNames reg names with
      | ok L => rw [hr] at heq; simp [Except.map] at heq
      | error e =>
        rw [hr] at heq
        simp only [Except.map, Except.error.injEq] at heq
        obtain ⟨n, rfl⟩ := fnsForNames_error_keyError reg names e hr
        rw [heq] at hr
        obtain ⟨n', hn'⟩ := fnsForNames_error_keyError reg names _ hr
        exact PyErr.noConfusion hn'
    · intro hcov
      obtain ⟨L, hL, hkeys, hmem⟩ := fnsForNames_ok reg names hcov
      refine ⟨pyDict L, ?_, ?_⟩
      · rw [aggregate_json.agg_fns_from_names, if_neg hdrop, hL]
        rfl
      · intro n
        rw [lookup_pyDict]
        by_cases hn : n ∈ names
        · rw [if_pos hn]
          have hmemrev : n ∈ keys L.reverse := by
            simp only [keys, List.map_reverse, List.mem_reverse]
            rw [show List.map Prod.fst L = keys L from rfl, hkeys]
            exact hn
          obtain ⟨v, hv⟩ := Option.isSome_iff_exists.mp
            ((lookup_isSome_iff L.reverse n).mpr hmemrev)
          rw [hv]
          have : (n, v) ∈ L := List.mem_reverse.mp (mem_of_lookup_eq_some hv)
          exact (hmem (n, v) this).symm
        · rw [if_neg hn]
          refine (lookup_eq_none_iff _ _).mpr ?_
          intro hc
          refine hn ?_
          simp only [keys, List.map_reverse, List.mem_reverse] at hc
          rw [show List.map Prod.fst L = keys L from rfl, hkeys] at hc
          exact hc

/-- Witness for C7: `['drop', 'sum']` raises the configuration error. -/
theorem claim_C7_agg_fns_from_names_witness :
    (aggregate_json.dropKeyword ∈ (["drop", "sum"] : List String)
      ∧ ∃ n ∈ (["drop", "sum"] : List String), n ≠ aggregate_json.dropKeyword)
    ∧ aggregate_json.agg_fns_from_names
        [("sum", fun (vs : List Int) => vs.foldl (· + ·) 0)] ["drop", "sum"]
      = .error (.valueError aggregate_json.dropCombinedMsg) := by
  refine ⟨⟨by decide, ⟨"sum", by decide, by decide⟩⟩, ?_⟩
  exact (claim_C7_agg_fns_from_names
    [("sum", fun (vs : List Int) => vs.foldl (· + ·) 0)] ["drop", "sum"]).1
    (by decide) ⟨"sum", by decide, by decide⟩

/-- Claim C4: the effective spec of a key is its `agg_fns` entry when the key
is explicitly listed (even when that entry is the drop marker `None`), and
`default_agg_fns` otherwise; a key whose resolved spec is the drop marker is
entirely absent from the output of either implementation, even when the
default would have applied; and on `[{'a':1,'b':2}, {'a':3,'b':4}]` with
`agg_fns={'a': drop}` and default `{'list': identity}` the result is
`{'b': {'list': [2, 4]}}`, with `'a'` fully absent. -/
theorem claim_C4_drop_marker {K : Type} [DecidableEq K] {α β : Type} :
    (∀ (agg_fns : Option (List (K × Option (FnSet α β))))
        (default_agg_fns : Option (FnSet α β)) (k : K) (s : Option (FnSet α β)),
        lookup (agg_fns.getD []) k = some s →
        resolveSpec agg_fns default_agg_fns k = s)
    ∧ (∀ (agg_fns : Option (List (K × Option (FnSet α β))))
        (default_agg_fns : Option (FnSet α β)) (k : K),
        k ∉ keys (agg_fns.getD []) →
        resolveSpec agg_fns default_agg_fns k = default_agg_fns)
    ∧ (∀ (dicts : List (List (K × α)))
        (agg_fns : Option (List (K × Option (FnSet α β))))
        (default_agg_fns : Option (FnSet α β)) (k : K)
        (out : List (K × List (String × β))),
        resolveSpec agg_fns default_agg_fns k = none →
        (aggregation.agg_values_by_key dicts agg_fns default_agg_fns = .ok out →
          k ∉ keys out)
        ∧ (aggregate_json.agg_values_by_key dicts agg_fns default_agg_fns = .ok out →
          k ∉ keys out))
    ∧ (aggregation.agg_values_by_key
          ([[("a", 1), ("b", 2)], [("a", 3), ("b", 4)]] : List (List (String × Int)))
          (some [("a", (none : Option (FnSet Int (List Int))))])
          (some [("list", fun vs => vs)])
        = .ok [("b", [("list", [2, 4])])]
      ∧ aggregate_json.agg_values_by_key
          ([[("a", 1), ("b", 2)], [("a", 3), ("b", 4)]] : List (List (String × Int)))
          (some [("a", (none : Option (FnSet Int (List Int))))])
          (some [("list", fun vs => vs)])
        = .ok [("b", [("list", [2, 4])])]) := by
  refine ⟨?_, ?_, ?_, by rfl, by rfl⟩
  · intro agg_fns default_agg_fns k s h
    rw [resolveSpec, h]
    rfl
  · intro agg_fns default_agg_fns k h
    rw [resolveSpec, (lookup_eq_none_iff _ _).mpr h]
    rfl
  · intro dicts agg_fns default_agg_fns k out hres
    exact ⟨fun hok => not_mem_agg_m_of_resolve_none hres hok,
      fun hok => not_mem_agg_j_of_resolve_none hres hok⟩

/-- Witness for C4: the drop marker on key `'a'` keeps it out of the concrete
example's output. -/
theorem claim_C4_drop_marker_witness :
    (resolveSpec (some [("a", (none : Option (FnSet Int (List Int))))])
        (some [("list", fun vs => vs)]) "a" = none
      ∧ aggregation.agg_values_by_key
          ([[("a", 1), ("b", 2)], [("a", 3), ("b", 4)]] : List (List (String × Int)))
          (some [("a", (none : Option (FnSet Int (List Int))))])
          (some [("list", fun vs => vs)])
        = .ok [("b", [("list", [2, 4])])])
    ∧ "a" ∉ keys [(("b" : String), [("list", ([2, 4] : List Int))])] := by
  refine ⟨⟨rfl, by rfl⟩, ?_⟩
  exact (claim_C4_drop_marker.2.2.1
    ([[("a", 1), ("b", 2)], [("a", 3), ("b", 4)]] : List (List (String × Int)))
    (some [("a", (none : Option (FnSet Int (List Int))))])
    (some [("list", fun vs => vs)]) "a" [("b", [("list", [2, 4])])] (by rfl)).1 (by rfl)

/-- Claim C5 as stated is false: when two distinct leaf paths join to the
same compound key, `dict()` keeps only the later binding, so not every
non-mapping value of the input appears in the output.  On
`{'a': {'b': 1}, 'a.b': 2}` with delimiter `'.'` the leaf `1` at path
`['a','b']` is overwritten by the later leaf `2` at path `['a.b']`. -/
theorem claim_C5_counterexample :
    ¬ (∀ (p : List String) (v : Val),
        (p, v) ∈ utils.pathLeaves [("a", Val.obj [("b", Val.int 1)]), ("a.b", Val.int 2)] →
        (utils.joinPath "." p, v) ∈ utils.flatten_dict
          [("a", Val.obj [("b", Val.int 1)]), ("a.b", Val.int 2)] none ".") := by
  intro hclaim
  have hmem : ((["a", "b"] : List String), Val.int 1)
      ∈ utils.pathLeaves [("a", Val.obj [("b", Val.int 1)]), ("a.b", Val.int 2)] := by
    simp [utils.pathLeaves]
  have h := hclaim ["a", "b"] (Val.int 1) hmem
  have hflat : utils.flatten_dict
      [("a", Val.obj [("b", Val.int 1)]), ("a.b", Val.int 2)] none "."
      = [("a.b", Val.int 2)] := by
    simp [utils.flatten_dict, utils.flatten_dict_gen, utils.joinKey, pyDict, pyInsert]
  rw [hflat] at h
  have hjp : utils.joinPath "." ["a", "b"] = "a.b" := rfl
  rw [hjp] at h
  simp at h

/-- Claim C5, amended: provided the compound keys of the input's leaves are
pairwise distinct (no collisions between delimiter-joined paths), the
flattened dict is exactly the input's leaves, each copied unchanged under its
compound key, and nothing else; the empty mapping flattens to the empty
mapping, and the two doctest examples hold. -/
theorem claim_C5_amended :
    (∀ (d : List (String × Val)) (delimiter : String),
      ((utils.pathLeaves d).map (fun q => utils.joinPath delimiter q.1)).Nodup →
      utils.flatten_dict d none delimiter
        = (utils.pathLeaves d).map (fun q => (utils.joinPath delimiter q.1, q.2)))
    ∧ utils.flatten_dict [] none "." = []
    ∧ utils.flatten_dict
        [("a", Val.obj [("b", Val.int 1), ("c", Val.obj [("d", Val.int 2)])])] none "."
        = [("a.b", Val.int 1), ("a.c.d", Val.int 2)]
    ∧ utils.flatten_dict
        [("a", Val.obj [("b", Val.int 1), ("c", Val.obj [("d", Val.int 2)])])] none "_"
        = [("a_b", Val.int 1), ("a_c_d", Val.int 2)] := by
  refine ⟨?_, ?_, ?_, ?_⟩
  · intro d delimiter hnd
    have hnd' : ((utils.pathLeaves d).map
        (fun q => utils.joinFrom none delimiter q.1)).Nodup := hnd
    rw [utils.flatten_dict, utils.flatten_dict_gen_eq_pathLeaves d none delimiter hnd']
    have hgoal : (utils.pathLeaves d).map (fun q => (utils.joinPath delimiter q.1, q.2))
        = (utils.pathLeaves d).map (fun q => (utils.joinFrom none delimiter q.1, q.2)) := rfl
    rw [hgoal]
    refine pyDict_eq_self ?_
    have hkeys : keys ((utils.pathLeaves d).map
          (fun q => (utils.joinFrom none delimiter q.1, q.2)))
        = (utils.pathLeaves d).map (fun q => utils.joinFrom none delimiter q.1) := by
      simp only [keys, List.map_map]
      rfl
    rw [hkeys]
    exact hnd'
  · simp [utils.flatten_dict, utils.flatten_dict_gen, pyDict]
  · simp [utils.flatten_dict, utils.flatten_dict_gen, utils.joinKey, pyDict, pyInsert]
  · simp [utils.flatten_dict, utils.flatten_dict_gen, utils.joinKey, pyDict, pyInsert]

/-- Witness for the amended C5 on a two-level document without collisions. -/
theorem claim_C5_amended_witness :
    ((utils.pathLeaves [("a", Val.int 1), ("b", Val.obj [("c", Val.int 2)])]).map
        (fun q => utils.joinPath "." q.1)).Nodup
    ∧ utils.flatten_dict [("a", Val.int 1), ("b", Val.obj [("c", Val.int 2)])] none "."
        = (utils.pathLeaves [("a", Val.int 1), ("b", Val.obj [("c", Val.int 2)])]).map
            (fun q => (utils.joinPath "." q.1, q.2)) := by
  have hp : utils.pathLeaves [("a", Val.int 1), ("b", Val.obj [("c", Val.int 2)])]
      = [(["a"], Val.int 1), (["b", "c"], Val.int 2)] := by
    simp [utils.pathLeaves]
  have hyp : ((utils.pathLeaves [("a", Val.int 1), ("b", Val.obj [("c", Val.int 2)])]).map
      (fun q => utils.joinPath "." q.1)).Nodup := by
    rw [hp]
    decide
  exact ⟨hyp, claim_C5_amended.1 [("a", Val.int 1), ("b", Val.obj [("c", Val.int 2)])] "." hyp⟩

/-- Claim C6: `flatten_dict` is the identity on flat dicts (no value is a
mapping), and hence idempotent: flattening a `flatten_dict` result — whose
values are never mappings and whose keys are distinct — returns it unchanged,
for any delimiters. -/
theorem claim_C6_flatten_idempotent :
    (∀ (d : List (String × Val)) (delimiter : String),
      (keys d).Nodup → (∀ p ∈ d, p.2.isObj = false) →
      utils.flatten_dict d none delimiter = d)
    ∧ (∀ (d : List (String × Val)) (parent : Option String) (delim₁ delim₂ : String),
      utils.flatten_dict (utils.flatten_dict d parent delim₁) none delim₂
        = utils.flatten_dict d parent delim₁) := by
  have part1 : ∀ (d : List (String × Val)) (delimiter : String),
      (keys d).Nodup → (∀ p ∈ d, p.2.isObj = false) →
      utils.flatten_dict d none delimiter = d := by
    intro d delimiter hnd hflat
    rw [utils.flatten_dict, utils.flatten_dict_gen_of_flat d delimiter hflat]
    exact pyDict_eq_self hnd
  refine ⟨part1, ?_⟩
  intro d parent delim₁ delim₂
  refine part1 _ _ ?_ ?_
  · rw [utils.flatten_dict]
    exact keys_pyDict_nodup _
  · intro p hp
    rw [utils.flatten_dict] at hp
    have hsnd : p.2 ∈ (pyDict (utils.flatten_dict_gen d parent delim₁)).map Prod.snd :=
      List.mem_map_of_mem _ hp
    have h2 := snd_mem_pyDict hsnd
    rw [List.mem_map] at h2
    obtain ⟨q, hq, hq2⟩ := h2
    rw [← hq2]
    exact utils.flatten_dict_gen_values_not_obj d parent delim₁ q hq

/-- Witness for C6 on a concrete flat dict. -/
theorem claim_C6_flatten_idempotent_witness :
    ((keys [(("a" : String), Val.int 1), ("b", Val.str "x")]).Nodup
      ∧ ∀ p ∈ [(("a" : String), Val.int 1), ("b", Val.str "x")], p.2.isObj = false)
    ∧ utils.flatten_dict [(("a" : String), Val.int 1), ("b", Val.str "x")] none "."
        = [("a", Val.int 1), ("b", Val.str "x")] := by
  refine ⟨⟨by decide, by decide⟩, ?_⟩
  exact claim_C6_flatten_idempotent.1 [("a", Val.int 1), ("b", Val.str "x")] "."
    (by decide) (by decide)

/-- Claim C10: an entry whose value is an empty mapping contributes nothing
to `flatten_dict`'s output — at top level and nested (the removal equations
hold for every parent key, hence at any depth); in particular
`flatten_dict({'a': {}})` is `{}`, equal to flattening the empty mapping even
though the inputs differ (lengths 1 and 0), so flattening is not injective. -/
theorem claim_C10_empty_obj_disappears :
    (∀ (d₁ d₂ : List (String × Val)) (k : String) (parent : Option String)
        (delimiter : String),
      utils.flatten_dict (d₁ ++ (k, Val.obj []) :: d₂) parent delimiter
        = utils.flatten_dict (d₁ ++ d₂) parent delimiter)
    ∧ (∀ (d₁ d₂ e₁ e₂ : List (String × Val)) (k' k : String) (parent : Option String)
        (delimiter : String),
      utils.flatten_dict (d₁ ++ (k', Val.obj (e₁ ++ (k, Val.obj []) :: e₂)) :: d₂)
          parent delimiter
        = utils.flatten_dict (d₁ ++ (k', Val.obj (e₁ ++ e₂)) :: d₂) parent delimiter)
    ∧ utils.flatten_dict [("a", Val.obj [])] none "." = []
    ∧ utils.flatten_dict [("a", Val.obj [])] none "." = utils.flatten_dict [] none "."
    ∧ ([("a", Val.obj [])] : List (String × Val)).length = 1
    ∧ ([] : List (String × Val)).length = 0 := by
  refine ⟨?_, ?_, ?_, ?_, rfl, rfl⟩
  · intro d₁ d₂ k parent delimiter
    rw [utils.flatten_dict, utils.flatten_dict, utils.flatten_dict_gen_remove_empty]
  · intro d₁ d₂ e₁ e₂ k' k parent delimiter
    rw [utils.flatten_dict, utils.flatten_dict]
    rw [utils.flatten_dict_gen_append, utils.flatten_dict_gen_append]
    have hmid : ∀ E : List (String × Val),
        utils.flatten_dict_gen ((k', Val.obj E) :: d₂) parent delimiter
          = pyDict (utils.flatten_dict_gen E
              (some (utils.joinKey parent delimiter k')) delimiter)
            ++ utils.flatten_dict_gen d₂ parent delimiter := by
      intro E
      simp only [utils.flatten_dict_gen]
    rw [hmid, hmid, utils.flatten_dict_gen_remove_empty]
  · simp [utils.flatten_dict, utils.flatten_dict_gen, pyDict]
  · simp [utils.flatten_dict, utils.flatten_dict_gen, pyDict]

end JsonAgg
